import Mathlib

/-!
Verification development for the Strava KOM tracker
(`kom.py` and `strava.py`).

The Python snapshot dictionaries (`self.koms`, `self.old_koms`) are
modelled as association lists with the Python dict operations
(`d[k] = v` as `dinsert`, `d[k]` as `dlookup`, `set(d.keys())` as
`keys`).  The HTML page parser, the pagination loop, the JSON
serialization of the snapshot store, the file-system effects of
`main`, and the `getopt`/`int` command-line boundary are each given a
shallow embedding below, next to the theorems about them.
-/

/-- Model of a Python `dict` with string keys and values: an association
list in insertion order.  Canonical dicts have pairwise-distinct keys. -/
abbrev Dict : Type := List (String × String)

/-- Model of Python `d[k] = v`: replace the value at the first matching
key in place, or append a fresh binding at the end. -/
def dinsert (m : Dict) (k v : String) : Dict :=
  match m with
  | [] => [(k, v)]
  | (k', v') :: rest => if k' = k then (k, v) :: rest else (k', v') :: dinsert rest k v

/-- Model of Python `d[k]`: `none` models an uncaught `KeyError`. -/
def dlookup (m : Dict) (k : String) : Option String :=
  match m with
  | [] => none
  | (k', v) :: rest => if k' = k then some v else dlookup rest k

/-- Model of Python `set(d.keys())`. -/
def keys (m : Dict) : Finset String := (m.map Prod.fst).toFinset

/-- The first defined of two optional values (the fall-through of a
chain of dictionary lookups). -/
def firstSome (a b : Option String) : Option String :=
  match a with
  | some v => some v
  | none => b

theorem firstSome_none (b : Option String) : firstSome none b = b := rfl

theorem firstSome_assoc (a b c : Option String) :
    firstSome (firstSome a b) c = firstSome a (firstSome b c) := by
  cases a <;> rfl

theorem firstSome_none_right (a : Option String) : firstSome a none = a := by
  cases a <;> rfl

theorem dlookup_dinsert_self (m : Dict) (k v : String) :
    dlookup (dinsert m k v) k = some v := by
  induction m with
  | nil => simp [dinsert, dlookup]
  | cons p rest ih =>
    obtain ⟨k', v'⟩ := p
    by_cases h : k' = k <;> simp [dinsert, dlookup, h, ih]

theorem dlookup_dinsert_ne (m : Dict) (k v k' : String) (h : k' ≠ k) :
    dlookup (dinsert m k v) k' = dlookup m k' := by
  have hk : ¬ k = k' := fun hh => h hh.symm
  induction m with
  | nil => simp [dinsert, dlookup, hk]
  | cons p rest ih =>
    obtain ⟨k₀, v₀⟩ := p
    by_cases h0 : k₀ = k
    · subst h0
      simp [dinsert, dlookup, hk]
    · simp [dinsert, dlookup, h0, ih]

theorem keys_dinsert (m : Dict) (k v : String) :
    keys (dinsert m k v) = insert k (keys m) := by
  induction m with
  | nil => simp [dinsert, keys]
  | cons p rest ih =>
    obtain ⟨k', v'⟩ := p
    by_cases h : k' = k
    · subst h
      simp [dinsert, keys, List.toFinset_cons]
    · simp only [dinsert, if_neg h, keys, List.map_cons, List.toFinset_cons] at *
      rw [ih, Finset.Insert.comm]

theorem dlookup_append (a b : Dict) (k : String) :
    dlookup (a ++ b) k = firstSome (dlookup a k) (dlookup b k) := by
  induction a with
  | nil => simp [dlookup, firstSome]
  | cons p rest ih =>
    obtain ⟨k', v'⟩ := p
    by_cases h : k' = k <;> simp [dlookup, h, ih, firstSome]

/-- Folding a run of parsed `(id, name)` matches into the accumulating
dict, in match order (the body of the `for match in matches` loop). -/
def insertAll (m : Dict) (ms : List (String × String)) : Dict :=
  ms.foldl (fun acc pr => dinsert acc pr.1 pr.2) m

theorem insertAll_nil (m : Dict) : insertAll m [] = m := rfl

theorem insertAll_cons (m : Dict) (k v : String) (ms : List (String × String)) :
    insertAll m ((k, v) :: ms) = insertAll (dinsert m k v) ms := rfl

theorem keys_insertAll (ms : List (String × String)) (m : Dict) :
    keys (insertAll m ms) = keys m ∪ (ms.map Prod.fst).toFinset := by
  induction ms generalizing m with
  | nil => simp [insertAll, keys]
  | cons p rest ih =>
    obtain ⟨k, v⟩ := p
    rw [insertAll_cons, ih, keys_dinsert]
    simp [Finset.union_insert, Finset.insert_union]

theorem dlookup_insertAll (ms : List (String × String)) (m : Dict) (k : String) :
    dlookup (insertAll m ms) k = firstSome (dlookup ms.reverse k) (dlookup m k) := by
  induction ms generalizing m with
  | nil => simp [insertAll, dlookup, firstSome]
  | cons p rest ih =>
    obtain ⟨k', v'⟩ := p
    rw [insertAll_cons, ih, List.reverse_cons, dlookup_append, firstSome_assoc]
    congr 1
    by_cases h : k = k'
    · subst h
      simp [dlookup_dinsert_self, dlookup, firstSome]
    · rw [dlookup_dinsert_ne _ _ _ _ h]
      have hk : ¬ k' = k := fun hh => h hh.symm
      simp [dlookup, hk, firstSome]

/-- If the keys of the pair list are pairwise distinct and disjoint from
the accumulator, inserting them all just appends them. -/
theorem insertAll_eq_append (ms : List (String × String)) (m : Dict)
    (hnd : (ms.map Prod.fst).Nodup)
    (hdisj : ∀ p ∈ ms, dlookup m p.1 = none) :
    insertAll m ms = m ++ ms := by
  induction ms generalizing m with
  | nil => simp [insertAll]
  | cons p rest ih =>
    obtain ⟨k, v⟩ := p
    rw [insertAll_cons]
    have hnd' : k ∉ rest.map Prod.fst ∧ (rest.map Prod.fst).Nodup := by
      rw [List.map_cons, List.nodup_cons] at hnd
      exact hnd
    have hknotin : dlookup m k = none := hdisj (k, v) (by simp)
    have hins : dinsert m k v = m ++ [(k, v)] := by
      clear ih hdisj hnd hnd'
      induction m with
      | nil => simp [dinsert]
      | cons q mrest ihm =>
        obtain ⟨k₀, v₀⟩ := q
        by_cases h : k₀ = k
        · simp [dlookup, h] at hknotin
        · simp [dlookup, h] at hknotin
          simp [dinsert, h, ihm hknotin]
    rw [hins, ih]
    · simp
    · exact hnd'.2
    · intro q hq
      rw [dlookup_append]
      have hqk : ¬ k = q.1 := by
        intro hh
        exact hnd'.1 (hh ▸ (List.mem_map.mpr ⟨q, hq, rfl⟩))
      rw [hdisj q (List.mem_cons_of_mem _ hq)]
      simp [dlookup, hqk, firstSome]

/-- Inserting a run of distinct-keyed pairs into the empty dict yields
exactly that list (models building a Python dict from parsed pairs). -/
theorem insertAll_nil_eq (ms : List (String × String))
    (hnd : (ms.map Prod.fst).Nodup) : insertAll [] ms = ms := by
  have := insertAll_eq_append ms [] hnd (fun p _ => rfl)
  simpa using this

/-- Model of `KOM.Diff`: the Python `[new - old, old - new]` computed on
the key sets of the previous (`old_koms`) and current (`koms`)
snapshots, returned in that order (gained first, lost second).  The
`filename` argument of the Python method is unused by its body and is
omitted. -/
def Diff (old_koms koms : Dict) : Finset String × Finset String :=
  (keys koms \ keys old_koms, keys old_koms \ keys koms)

/-- Model of `KOM.GetSegmentName`: `try: koms[id] except KeyError:
old_koms[id]`; `none` models an uncaught `KeyError` from the fallback. -/
def GetSegmentName (koms old_koms : Dict) (segment_id : String) : Option String :=
  match dlookup koms segment_id with
  | some n => some n
  | none => dlookup old_koms segment_id

/-- C1: for every pair of snapshots, `Diff` returns `(gained, lost)` in
that order with `gained = keys current minus keys previous` and
`lost = keys previous minus keys current`; the two components are
always disjoint, and when the two key sets coincide both are empty. -/
theorem Diff_set_algebra (old_koms koms : Dict) :
    (Diff old_koms koms).1 = keys koms \ keys old_koms ∧
    (Diff old_koms koms).2 = keys old_koms \ keys koms ∧
    Disjoint (Diff old_koms koms).1 (Diff old_koms koms).2 ∧
    (keys old_koms = keys koms →
      (Diff old_koms koms).1 = ∅ ∧ (Diff old_koms koms).2 = ∅) := by
  refine ⟨rfl, rfl, disjoint_sdiff_sdiff, ?_⟩
  intro h
  simp [Diff, h]

/-- Witness for C1 at concrete snapshots whose key sets coincide. -/
theorem Diff_set_algebra_witness :
    keys [("1", "A")] = keys [("1", "B")] ∧
    (Diff [("1", "A")] [("1", "B")]).1 = ∅ ∧
    (Diff [("1", "A")] [("1", "B")]).2 = ∅ := by
  refine ⟨by decide, (Diff_set_algebra [("1", "A")] [("1", "B")]).2.2.2 (by decide)⟩

/-- C5: name lookup returns the current snapshot's name for every id
present there, and falls back to the previous snapshot's name for
every id absent from the current snapshot. -/
theorem GetSegmentName_resolution (koms old_koms : Dict) (segment_id : String) :
    (∀ n, dlookup koms segment_id = some n →
      GetSegmentName koms old_koms segment_id = some n) ∧
    (dlookup koms segment_id = none →
      GetSegmentName koms old_koms segment_id = dlookup old_koms segment_id) := by
  constructor
  · intro n h
    simp [GetSegmentName, h]
  · intro h
    simp [GetSegmentName, h]

/-- Witness for C5: a present id resolves against the current snapshot,
a lost id falls back to the previous snapshot. -/
theorem GetSegmentName_resolution_witness :
    GetSegmentName [("2", "B")] [("1", "A")] "2" = some "B" ∧
    GetSegmentName [("2", "B")] [("1", "A")] "1" = some "A" := by
  constructor
  · exact (GetSegmentName_resolution [("2", "B")] [("1", "A")] "2").1 "B" (by decide)
  · exact ((GetSegmentName_resolution [("2", "B")] [("1", "A")] "1").2 (by decide)).trans
      (by decide)

/-- Python 2 `\s` on byte strings: the characters ` \t\n\r\f\v`. -/
def isPySpace (c : Char) : Bool :=
  c = ' ' || c = '\t' || c = '\n' || c = '\r' || c = '\x0b' || c = '\x0c'

/-- Consume an exact literal from the front of the input. -/
def eatLit : List Char → List Char → Option (List Char)
  | [], l => some l
  | _ :: _, [] => none
  | c :: cs, x :: xs => if x = c then eatLit cs xs else none

/-- The literal the segment pattern starts with: `"/segments/`. -/
def patHead : List Char := '"' :: "/segments/".toList

/-- The literal between the whitespace and the title text: `title="`. -/
def patMid : List Char := "title=\"".toList

theorem eatLit_append_self (p r : List Char) : eatLit p (p ++ r) = some r := by
  induction p with
  | nil => rfl
  | cons c cs ih => simp [eatLit, ih]

theorem eatLit_len (p : List Char) : ∀ (l r : List Char), eatLit p l = some r →
    r.length + p.length = l.length := by
  induction p with
  | nil =>
    intro l r h
    simp [eatLit] at h
    simp [h]
  | cons c cs ih =>
    intro l r h
    match l with
    | [] => simp [eatLit] at h
    | x :: xs =>
      simp only [eatLit] at h
      by_cases hx : x = c
      · rw [if_pos hx] at h
        have := ih xs r h
        simp [List.length_cons]
        omega
      · rw [if_neg hx] at h
        exact absurd h (by simp)

/-- Consume one expected character from the front of the input. -/
def eatChar (c : Char) (l : List Char) : Option (List Char) :=
  match l with
  | [] => none
  | x :: xs => if x = c then some xs else none

/-- Greedy, must-be-nonempty character-class repetition (`\d+`, `\s+`,
`[^"]+`): return the maximal nonempty run satisfying the predicate and
the remaining input. -/
def takeSome (p : Char → Bool) (l : List Char) : Option (List Char × List Char) :=
  match l.takeWhile p with
  | [] => none
  | d :: ds => some (d :: ds, l.dropWhile p)

theorem eatChar_len (c : Char) (l r : List Char) (h : eatChar c l = some r) :
    r.length + 1 = l.length := by
  match l with
  | [] => simp [eatChar] at h
  | x :: xs =>
    simp only [eatChar] at h
    by_cases hx : x = c
    · rw [if_pos hx] at h
      simp only [Option.some.injEq] at h
      subst h
      simp
    · rw [if_neg hx] at h
      exact absurd h (by simp)

theorem takeSome_len (p : Char → Bool) (l : List Char) (dl : List Char × List Char)
    (h : takeSome p l = some dl) : dl.2.length < l.length := by
  unfold takeSome at h
  cases htw : l.takeWhile p with
  | nil => rw [htw] at h; exact absurd h (by simp)
  | cons d ds =>
    rw [htw] at h
    simp only [Option.some.injEq] at h
    subst h
    have hsplit : (l.takeWhile p).length + (l.dropWhile p).length = l.length := by
      rw [← List.length_append, List.takeWhile_append_dropWhile]
    rw [htw] at hsplit
    simp only [List.length_cons] at hsplit
    simp only []
    omega

/-- Attempt the pattern `"/segments/(\d+)"\s+title="([^"]+)"` at the
start of the input; on success return the two capture groups and the
input remaining after the match.  Each greedy repetition of the pattern
is followed by a character it cannot match (`\d+` by `"`, `\s+` by `t`,
`[^"]+` by `"`), so maximal-munch without backtracking is exactly the
Python regex semantics. -/
def matchSegAt (l : List Char) : Option (String × String × List Char) :=
  (eatLit patHead l).bind fun l1 =>
  (takeSome Char.isDigit l1).bind fun dl =>
  (eatChar '"' dl.2).bind fun l3 =>
  (takeSome isPySpace l3).bind fun wl =>
  (eatLit patMid wl.2).bind fun l5 =>
  (takeSome (fun c => c != '"') l5).bind fun tl =>
  (eatChar '"' tl.2).bind fun l7 =>
  some (String.mk dl.1, String.mk tl.1, l7)

theorem matchSegAt_len (l : List Char) (a b : String) (rest : List Char)
    (h : matchSegAt l = some (a, b, rest)) : rest.length < l.length := by
  unfold matchSegAt at h
  cases hE : eatLit patHead l with
  | none => rw [hE] at h; simp at h
  | some l1 =>
    rw [hE] at h
    have h1 : l1.length + 11 = l.length := eatLit_len patHead l l1 hE
    simp only [Option.some_bind] at h
    cases h2 : takeSome Char.isDigit l1 with
    | none => rw [h2] at h; simp at h
    | some dl =>
      rw [h2] at h
      have h2l := takeSome_len _ _ _ h2
      simp only [Option.some_bind] at h
      cases h3 : eatChar '"' dl.2 with
      | none => rw [h3] at h; simp at h
      | some l3 =>
        rw [h3] at h
        have h3l := eatChar_len _ _ _ h3
        simp only [Option.some_bind] at h
        cases h4 : takeSome isPySpace l3 with
        | none => rw [h4] at h; simp at h
        | some wl =>
          rw [h4] at h
          have h4l := takeSome_len _ _ _ h4
          simp only [Option.some_bind] at h
          cases h5 : eatLit patMid wl.2 with
          | none => rw [h5] at h; simp at h
          | some l5 =>
            rw [h5] at h
            have h5l : l5.length + 7 = wl.2.length := eatLit_len patMid _ _ h5
            simp only [Option.some_bind] at h
            cases h6 : takeSome (fun c => c != '"') l5 with
            | none => rw [h6] at h; simp at h
            | some tl =>
              rw [h6] at h
              have h6l := takeSome_len _ _ _ h6
              simp only [Option.some_bind] at h
              cases h7 : eatChar '"' tl.2 with
              | none => rw [h7] at h; simp at h
              | some l7 =>
                rw [h7] at h
                have h7l := eatChar_len _ _ _ h7
                simp only [Option.some_bind, Option.some.injEq, Prod.mk.injEq] at h
                obtain ⟨-, -, hrest⟩ := h
                subst hrest
                omega

/-- Fuel-indexed scanner; the fuel only serves structural termination
and is irrelevant once it is at least the input length. -/
def findIterAux : Nat → List Char → List (String × String)
  | 0, _ => []
  | _ + 1, [] => []
  | fuel + 1, c :: cs =>
    match matchSegAt (c :: cs) with
    | some (d, t, rest) => (d, t) :: findIterAux fuel rest
    | none => findIterAux fuel cs

/-- Model of `re.finditer('"/segments/(\d+)"\s+title="([^"]+)"', html)`:
scan left to right; at each position try the pattern; on a match emit
the two capture groups and resume after the match (non-overlapping
leftmost matching), otherwise advance one character. -/
def findIter (html : List Char) : List (String × String) :=
  findIterAux html.length html

theorem findIterAux_cons_none (fuel : Nat) (c : Char) (cs : List Char)
    (h : matchSegAt (c :: cs) = none) :
    findIterAux (fuel + 1) (c :: cs) = findIterAux fuel cs := by
  simp only [findIterAux, h]

theorem findIterAux_cons_some (fuel : Nat) (c : Char) (cs : List Char)
    (d t : String) (rest : List Char)
    (h : matchSegAt (c :: cs) = some (d, t, rest)) :
    findIterAux (fuel + 1) (c :: cs) = (d, t) :: findIterAux fuel rest := by
  simp only [findIterAux, h]

theorem findIterAux_eq (n : Nat) : ∀ l : List Char, l.length ≤ n →
    findIterAux n l = findIter l := by
  induction n using Nat.strong_induction_on with
  | _ n IH =>
    intro l hl
    match n, l with
    | 0, l =>
      have : l = [] := List.length_eq_zero.mp (Nat.le_zero.mp hl)
      subst this
      rfl
    | n + 1, [] => rfl
    | n + 1, c :: cs =>
      have hcs : cs.length ≤ n := by simpa using hl
      have hfi : findIter (c :: cs) = findIterAux (cs.length + 1) (c :: cs) := rfl
      cases hm : matchSegAt (c :: cs) with
      | none =>
        rw [hfi, findIterAux_cons_none n c cs hm, findIterAux_cons_none cs.length c cs hm,
          IH n (Nat.lt_succ_self n) cs hcs, IH cs.length (Nat.lt_succ_of_le hcs) cs le_rfl]
      | some dtr =>
        obtain ⟨d, t, rest⟩ := dtr
        have hr : rest.length ≤ cs.length := by
          have := matchSegAt_len (c :: cs) d t rest hm
          simp only [List.length_cons] at this
          omega
        rw [hfi, findIterAux_cons_some n c cs d t rest hm,
          findIterAux_cons_some cs.length c cs d t rest hm,
          IH n (Nat.lt_succ_self n) rest (hr.trans hcs),
          IH cs.length (Nat.lt_succ_of_le hcs) rest hr]

theorem findIter_nil : findIter [] = [] := rfl

theorem findIter_cons_none (c : Char) (cs : List Char)
    (h : matchSegAt (c :: cs) = none) : findIter (c :: cs) = findIter cs := by
  have hfi : findIter (c :: cs) = findIterAux (cs.length + 1) (c :: cs) := rfl
  rw [hfi, findIterAux_cons_none cs.length c cs h, findIterAux_eq cs.length cs le_rfl]

theorem findIter_cons_some (c : Char) (cs : List Char) (d t : String) (rest : List Char)
    (h : matchSegAt (c :: cs) = some (d, t, rest)) :
    findIter (c :: cs) = (d, t) :: findIter rest := by
  have hfi : findIter (c :: cs) = findIterAux (cs.length + 1) (c :: cs) := rfl
  have hr : rest.length ≤ cs.length := by
    have := matchSegAt_len (c :: cs) d t rest h
    simp only [List.length_cons] at this
    omega
  rw [hfi, findIterAux_cons_some cs.length c cs d t rest h,
    findIterAux_eq cs.length rest hr]

theorem takeWhile_append_stop (p : Char → Bool) (a : List Char) (b : Char) (r : List Char)
    (ha : ∀ c ∈ a, p c = true) (hb : p b = false) :
    (a ++ b :: r).takeWhile p = a ∧ (a ++ b :: r).dropWhile p = b :: r := by
  induction a with
  | nil => simp [List.takeWhile_cons, List.dropWhile_cons, hb]
  | cons x xs ih =>
    have hx : p x = true := ha x (by simp)
    have ih' := ih (fun c hc => ha c (by simp [hc]))
    simp [List.takeWhile_cons, List.dropWhile_cons, hx, ih'.1, ih'.2]

theorem takeSome_append_stop (p : Char → Bool) (a : List Char) (b : Char) (r : List Char)
    (hne : a ≠ []) (ha : ∀ c ∈ a, p c = true) (hb : p b = false) :
    takeSome p (a ++ b :: r) = some (a, b :: r) := by
  obtain ⟨htw, hdw⟩ := takeWhile_append_stop p a b r ha hb
  match a, hne with
  | a0 :: a', _ =>
    simp only [takeSome, htw, hdw]

theorem matchSegAt_none_of_ne (c : Char) (cs : List Char) (h : ¬ c = '"') :
    matchSegAt (c :: cs) = none := by
  have hE : eatLit patHead (c :: cs) = none := by
    have hp : patHead = '"' :: "/segments/".toList := rfl
    rw [hp]
    simp [eatLit, h]
  unfold matchSegAt
  rw [hE]
  rfl

theorem matchSegAt_nil : matchSegAt [] = none := rfl

/-- One rendered well-formed segment occurrence:
`"/segments/DIGITS" WS title="TITLE"`. -/
def renderSeg (d w t : List Char) : List Char :=
  patHead ++ d ++ '"' :: (w ++ patMid ++ t ++ ['"'])

theorem matchSegAt_render (d w t rest : List Char)
    (hd : d ≠ []) (hdd : ∀ c ∈ d, c.isDigit = true)
    (hw : w ≠ []) (hww : ∀ c ∈ w, isPySpace c = true)
    (ht : t ≠ []) (htt : ∀ c ∈ t, (c != '"') = true) :
    matchSegAt (renderSeg d w t ++ rest) = some (String.mk d, String.mk t, rest) := by
  have hpm : patMid = 't' :: "itle=\"".toList := rfl
  have hshape : renderSeg d w t ++ rest =
      patHead ++ (d ++ '"' :: (w ++ 't' :: ("itle=\"".toList ++ (t ++ '"' :: rest)))) := by
    simp [renderSeg, hpm, List.append_assoc]
  rw [hshape]
  unfold matchSegAt
  rw [eatLit_append_self]
  simp only [Option.some_bind]
  rw [takeSome_append_stop Char.isDigit d '"' _ hd hdd (by decide)]
  simp only [Option.some_bind, eatChar, if_pos]
  rw [takeSome_append_stop isPySpace w 't' _ hw hww (by decide)]
  simp only [Option.some_bind]
  have hfold : 't' :: ("itle=\"".toList ++ (t ++ '"' :: rest)) =
      patMid ++ (t ++ '"' :: rest) := by
    rw [hpm]
    rfl
  rw [hfold, eatLit_append_self]
  simp only [Option.some_bind]
  rw [takeSome_append_stop (fun c => c != '"') t '"' rest ht htt (by decide)]
  simp only [Option.some_bind, eatChar, if_pos]

theorem findIter_of_matchSegAt (l : List Char) (d t : String) (rest : List Char)
    (h : matchSegAt l = some (d, t, rest)) : findIter l = (d, t) :: findIter rest := by
  match l with
  | [] => rw [matchSegAt_nil] at h; exact absurd h (by simp)
  | c :: cs => exact findIter_cons_some c cs d t rest h

theorem findIter_cons_ne (c : Char) (cs : List Char) (h : ¬ c = '"') :
    findIter (c :: cs) = findIter cs :=
  findIter_cons_none c cs (matchSegAt_none_of_ne c cs h)

theorem findIter_noquote (s : List Char) (hs : ∀ c ∈ s, c ≠ '"') : findIter s = [] := by
  induction s with
  | nil => rfl
  | cons c cs ih =>
    rw [findIter_cons_ne c cs (hs c (by simp)), ih (fun x hx => hs x (by simp [hx]))]

theorem findIter_append_noquote (s t : List Char) (hs : ∀ c ∈ s, c ≠ '"') :
    findIter (s ++ t) = findIter t := by
  induction s with
  | nil => rfl
  | cons c cs ih =>
    rw [List.cons_append, findIter_cons_ne _ _ (hs c (by simp)),
      ih (fun x hx => hs x (by simp [hx]))]

/-- A well-formed segment occurrence together with its trailing
separator: digits `d`, whitespace `w`, title `t`, separator `s`. -/
structure SegItem where
  d : List Char
  w : List Char
  t : List Char
  s : List Char

/-- Well-formedness of one occurrence, read off the source regex: a
nonempty digit run, a nonempty whitespace run, a nonempty title free of
double quotes, and a following separator free of double quotes (so no
malformed or partial occurrence can arise around it). -/
def GoodItem (it : SegItem) : Prop :=
  it.d ≠ [] ∧ (∀ c ∈ it.d, c.isDigit = true) ∧
  it.w ≠ [] ∧ (∀ c ∈ it.w, isPySpace c = true) ∧
  it.t ≠ [] ∧ (∀ c ∈ it.t, (c != '"') = true) ∧
  (∀ c ∈ it.s, c ≠ '"')

/-- An HTML page containing exactly the given well-formed occurrences
and nothing else: a quote-free prologue `s0`, then each rendered
occurrence followed by its quote-free separator. -/
def renderHtml (s0 : List Char) : List SegItem → List Char
  | [] => s0
  | it :: its => s0 ++ renderSeg it.d it.w it.t ++ renderHtml it.s its

theorem findIter_render (items : List SegItem) : ∀ s0 : List Char,
    (∀ c ∈ s0, c ≠ '"') → (∀ it ∈ items, GoodItem it) →
    findIter (renderHtml s0 items) =
      items.map (fun it => (String.mk it.d, String.mk it.t)) := by
  induction items with
  | nil =>
    intro s0 h0 _
    exact findIter_noquote s0 h0
  | cons it its ih =>
    intro s0 h0 hg
    have hgd := hg it (by simp)
    obtain ⟨h1, h2, h3, h4, h5, h6, h7⟩ := hgd
    have hsh : renderHtml s0 (it :: its) =
        s0 ++ (renderSeg it.d it.w it.t ++ renderHtml it.s its) := by
      simp [renderHtml, List.append_assoc]
    rw [hsh, findIter_append_noquote s0 _ h0,
      findIter_of_matchSegAt _ _ _ _
        (matchSegAt_render it.d it.w it.t _ h1 h2 h3 h4 h5 h6),
      ih it.s h7 (fun x hx => hg x (by simp [hx]))]
    rfl

/-- Model of `KOM._ParseSegments`: run the regex over the page HTML,
store every `(id, name)` capture into the accumulating snapshot dict in
match order (`self.koms[match.group(1)] = match.group(2)`), and return
whether the number of matches was nonzero. -/
def ParseSegments (html : List Char) (koms : Dict) : Dict × Bool :=
  (insertAll koms (findIter html), decide (0 < (findIter html).length))

theorem dlookup_eq_none (ms : List (String × String)) (k : String)
    (h : ∀ p ∈ ms, k ≠ p.1) : dlookup ms k = none := by
  induction ms with
  | nil => rfl
  | cons p rest ih =>
    obtain ⟨k', v'⟩ := p
    have hk : ¬ k' = k := fun hh => (h (k', v') (by simp)) hh.symm
    simp [dlookup, hk, ih (fun q hq => h q (by simp [hq]))]

theorem dlookup_of_mem_nodup (ms : List (String × String)) (k v : String)
    (hmem : (k, v) ∈ ms) (hnd : (ms.map Prod.fst).Nodup) : dlookup ms k = some v := by
  induction ms with
  | nil => simp at hmem
  | cons p rest ih =>
    obtain ⟨k', v'⟩ := p
    rw [List.map_cons, List.nodup_cons] at hnd
    rcases List.mem_cons.mp hmem with heq | hmem'
    · rw [Prod.mk.injEq] at heq
      obtain ⟨rfl, rfl⟩ := heq
      simp [dlookup]
    · have hk : ¬ k' = k := by
        intro hh
        subst hh
        exact hnd.1 (List.mem_map.mpr ⟨(k', v), hmem', rfl⟩)
      simp [dlookup, hk, ih hmem' hnd.2]

/-- C2: on an HTML input consisting of exactly N well-formed segment
link+title occurrences (with distinct ids) and no malformed ones, the
parser finds exactly those N `(id, name)` capture pairs in order of
appearance, adds exactly those N entries to the accumulating mapping —
each id mapped to its own name, every other key untouched — and
signals a nonzero match count if and only if N > 0. -/
theorem ParseSegments_wellformed (s0 : List Char) (items : List SegItem) (m : Dict)
    (h0 : ∀ c ∈ s0, c ≠ '"') (hg : ∀ it ∈ items, GoodItem it)
    (hnd : (items.map (fun it => String.mk it.d)).Nodup) :
    findIter (renderHtml s0 items) =
      items.map (fun it => (String.mk it.d, String.mk it.t)) ∧
    ((ParseSegments (renderHtml s0 items) m).2 = true ↔ items ≠ []) ∧
    keys (ParseSegments (renderHtml s0 items) m).1 =
      keys m ∪ (items.map (fun it => String.mk it.d)).toFinset ∧
    (∀ it ∈ items,
      dlookup (ParseSegments (renderHtml s0 items) m).1 (String.mk it.d) =
        some (String.mk it.t)) ∧
    (∀ k : String, (∀ it ∈ items, k ≠ String.mk it.d) →
      dlookup (ParseSegments (renderHtml s0 items) m).1 k = dlookup m k) := by
  have hfi := findIter_render items s0 h0 hg
  have hfst : (items.map (fun it => (String.mk it.d, String.mk it.t))).map Prod.fst =
      items.map (fun it => String.mk it.d) := by
    rw [List.map_map]
    rfl
  refine ⟨hfi, ?_, ?_, ?_, ?_⟩
  · simp only [ParseSegments, hfi, decide_eq_true_eq, List.length_map]
    exact List.length_pos
  · simp only [ParseSegments, keys_insertAll, hfi, hfst]
  · intro it hit
    simp only [ParseSegments, dlookup_insertAll, hfi]
    have hmem : (String.mk it.d, String.mk it.t) ∈
        (items.map (fun it => (String.mk it.d, String.mk it.t))).reverse :=
      List.mem_reverse.mpr (List.mem_map.mpr ⟨it, hit, rfl⟩)
    have hndrev : (((items.map (fun it => (String.mk it.d, String.mk it.t))).reverse).map
        Prod.fst).Nodup := by
      rw [List.map_reverse, hfst, List.nodup_reverse]
      exact hnd
    rw [dlookup_of_mem_nodup _ _ _ hmem hndrev]
    rfl
  · intro k hk
    simp only [ParseSegments, dlookup_insertAll, hfi]
    rw [dlookup_eq_none]
    · rfl
    · intro p hp
      obtain ⟨it, hit, rfl⟩ := List.mem_map.mp (List.mem_reverse.mp hp)
      exact hk it hit

instance (it : SegItem) : Decidable (GoodItem it) := by
  unfold GoodItem
  infer_instance

/-- Witness for C2 on a concrete two-occurrence page. -/
theorem ParseSegments_wellformed_witness :
    (∀ it ∈ [SegItem.mk "123".toList [' '] "Alpe".toList "<li>".toList,
             SegItem.mk "456".toList [' ', ' '] "Col du Nord".toList "</ul>".toList],
      GoodItem it) ∧
    findIter (renderHtml "<ul><a href=".toList
        [SegItem.mk "123".toList [' '] "Alpe".toList "<li>".toList,
         SegItem.mk "456".toList [' ', ' '] "Col du Nord".toList "</ul>".toList]) =
      [("123", "Alpe"), ("456", "Col du Nord")] ∧
    dlookup (ParseSegments (renderHtml "<ul><a href=".toList
        [SegItem.mk "123".toList [' '] "Alpe".toList "<li>".toList,
         SegItem.mk "456".toList [' ', ' '] "Col du Nord".toList "</ul>".toList]) []).1
      "123" = some "Alpe" := by
  have h := ParseSegments_wellformed "<ul><a href=".toList
      [SegItem.mk "123".toList [' '] "Alpe".toList "<li>".toList,
       SegItem.mk "456".toList [' ', ' '] "Col du Nord".toList "</ul>".toList] []
      (by decide) (by decide) (by decide)
  refine ⟨by decide, ?_, ?_⟩
  · rw [h.1]
    rfl
  · exact h.2.2.2.1 (SegItem.mk "123".toList [' '] "Alpe".toList "<li>".toList) (by simp)

/-- The page-count ceiling of `kom.py`: `MAX_KOM_PAGES = 10`. -/
def MAX_KOM_PAGES : Nat := 10

/-- One run of the `for page in range(1, MAX_KOM_PAGES + 1)` loop of
`KOM.RefreshKOMs` over the remaining page numbers: fetch the page via
the collaborator, parse it into the accumulating snapshot, and break
when a page yields no matches.  Returns the final snapshot together
with the pages actually fetched, in fetch order. -/
def RefreshAux (fetch : Nat → List Char) : List Nat → Dict → Dict × List Nat
  | [], koms => (koms, [])
  | p :: ps, koms =>
    let pr := ParseSegments (fetch p) koms
    if pr.2 then
      let r := RefreshAux fetch ps pr.1
      (r.1, p :: r.2)
    else (pr.1, [p])

/-- Model of `KOM.RefreshKOMs`: the loop over pages `1 .. MAX_KOM_PAGES`
starting from the given current snapshot (a fresh `KOM` object starts
from the empty dict). -/
def RefreshKOMs (fetch : Nat → List Char) (koms : Dict) : Dict × List Nat :=
  RefreshAux fetch (List.range' 1 MAX_KOM_PAGES) koms

/-- All `(id, name)` matches produced across the given pages, in fetch
order. -/
def pageMatches (fetch : Nat → List Char) (pages : List Nat) : List (String × String) :=
  (pages.map (fun p => findIter (fetch p))).flatten

theorem pageMatches_nil (fetch : Nat → List Char) : pageMatches fetch [] = [] := rfl

theorem pageMatches_cons (fetch : Nat → List Char) (p : Nat) (ps : List Nat) :
    pageMatches fetch (p :: ps) = findIter (fetch p) ++ pageMatches fetch ps := by
  simp [pageMatches]

theorem RefreshAux_len_le (fetch : Nat → List Char) (ps : List Nat) :
    ∀ koms : Dict, (RefreshAux fetch ps koms).2.length ≤ ps.length := by
  induction ps with
  | nil => intro koms; simp [RefreshAux]
  | cons p ps ih =>
    intro koms
    simp only [RefreshAux]
    cases hb : (ParseSegments (fetch p) koms).2 with
    | false => simp
    | true =>
      have h := ih ((ParseSegments (fetch p) koms).1)
      simp only [if_true, List.length_cons]
      omega

theorem RefreshAux_len_all (fetch : Nat → List Char) : ∀ ps : List Nat,
    (∀ p ∈ ps, findIter (fetch p) ≠ []) →
    ∀ koms : Dict, (RefreshAux fetch ps koms).2.length = ps.length := by
  intro ps
  induction ps with
  | nil => intro _ koms; rfl
  | cons p ps ih =>
    intro hall koms
    have hflag : (ParseSegments (fetch p) koms).2 = true := by
      simp only [ParseSegments, decide_eq_true_eq]
      exact List.length_pos.mpr (hall p (by simp))
    have h := ih (fun q hq => hall q (by simp [hq])) ((ParseSegments (fetch p) koms).1)
    simp only [RefreshAux, hflag, if_true, List.length_cons]
    omega

/-- C3: for every athlete page-fetch collaborator — including one for
which every page yields matches — `RefreshKOMs` fetches at most
`MAX_KOM_PAGES` pages and then terminates (it is a total function);
the configured ceiling in this version is 10, one of the observed
values 5 and 10; and when every page matches, the loop runs to exactly
the ceiling. -/
theorem RefreshKOMs_bounded (fetch : Nat → List Char) (koms : Dict) :
    (RefreshKOMs fetch koms).2.length ≤ MAX_KOM_PAGES ∧
    (MAX_KOM_PAGES = 5 ∨ MAX_KOM_PAGES = 10) ∧
    ((∀ p : Nat, findIter (fetch p) ≠ []) →
      (RefreshKOMs fetch koms).2.length = MAX_KOM_PAGES) := by
  refine ⟨?_, Or.inr rfl, ?_⟩
  · have := RefreshAux_len_le fetch (List.range' 1 MAX_KOM_PAGES) koms
    simpa [RefreshKOMs] using this
  · intro hall
    have := RefreshAux_len_all fetch (List.range' 1 MAX_KOM_PAGES)
      (fun p _ => hall p) koms
    simpa [RefreshKOMs] using this

/-- Witness for C3 with a collaborator whose every page contains one
well-formed segment: the loop fetches exactly the ceiling. -/
theorem RefreshKOMs_bounded_witness :
    (∀ p : Nat, findIter ((fun _ => renderSeg "1".toList [' '] "A".toList) p) ≠ []) ∧
    (RefreshKOMs (fun _ => renderSeg "1".toList [' '] "A".toList) []).2.length =
      MAX_KOM_PAGES := by
  have hne : findIter (renderSeg "1".toList [' '] "A".toList) ≠ [] := by decide
  exact ⟨fun p => hne,
    (RefreshKOMs_bounded (fun _ => renderSeg "1".toList [' '] "A".toList) []).2.2
      (fun p => hne)⟩

theorem RefreshAux_spec (fetch : Nat → List Char) : ∀ (ps : List Nat) (koms : Dict),
    keys (RefreshAux fetch ps koms).1 =
      keys koms ∪
        ((pageMatches fetch (RefreshAux fetch ps koms).2).map Prod.fst).toFinset ∧
    ∀ k : String, dlookup (RefreshAux fetch ps koms).1 k =
      firstSome (dlookup (pageMatches fetch (RefreshAux fetch ps koms).2).reverse k)
        (dlookup koms k) := by
  intro ps
  induction ps with
  | nil =>
    intro koms
    constructor
    · simp [RefreshAux, pageMatches, keys]
    · intro k
      simp [RefreshAux, pageMatches, dlookup, firstSome]
  | cons p ps ih =>
    intro koms
    cases hb : (ParseSegments (fetch p) koms).2 with
    | false =>
      have hempty : findIter (fetch p) = [] := by
        simp only [ParseSegments, decide_eq_false_iff_not, Nat.not_lt, Nat.le_zero] at hb
        exact List.length_eq_zero.mp hb
      have h1 : (ParseSegments (fetch p) koms).1 = koms := by
        simp [ParseSegments, hempty, insertAll]
      have hres : RefreshAux fetch (p :: ps) koms = (koms, [p]) := by
        simp [RefreshAux, hb, h1]
      rw [hres]
      constructor
      · simp [pageMatches, hempty]
      · intro k
        simp [pageMatches, hempty, dlookup, firstSome]
    | true =>
      have ihs := ih ((ParseSegments (fetch p) koms).1)
      have hres : RefreshAux fetch (p :: ps) koms =
          ((RefreshAux fetch ps ((ParseSegments (fetch p) koms).1)).1,
            p :: (RefreshAux fetch ps ((ParseSegments (fetch p) koms).1)).2) := by
        simp [RefreshAux, hb]
      have hP1 : (ParseSegments (fetch p) koms).1 =
          insertAll koms (findIter (fetch p)) := rfl
      rw [hres]
      constructor
      · rw [ihs.1, pageMatches_cons]
        rw [hP1, keys_insertAll]
        simp [List.map_append, List.toFinset_append, Finset.union_assoc]
      · intro k
        rw [ihs.2 k, pageMatches_cons, List.reverse_append, dlookup_append,
          firstSome_assoc]
        rw [hP1, dlookup_insertAll]

/-- C4: after `RefreshKOMs` reaches the end of its loop starting from a
fresh `KOM` object (empty current snapshot), the current snapshot's
keys are exactly the union of the segment ids matched across all pages
fetched in the run, and each id maps to the name from its last match in
fetch order (last write wins within the run). -/
theorem RefreshKOMs_snapshot (fetch : Nat → List Char) :
    keys (RefreshKOMs fetch []).1 =
      ((pageMatches fetch (RefreshKOMs fetch []).2).map Prod.fst).toFinset ∧
    ∀ k : String, dlookup (RefreshKOMs fetch []).1 k =
      dlookup (pageMatches fetch (RefreshKOMs fetch []).2).reverse k := by
  have h := RefreshAux_spec fetch (List.range' 1 MAX_KOM_PAGES) []
  constructor
  · have h1 := h.1
    simpa [RefreshKOMs, keys] using h1
  · intro k
    have h2 := h.2 k
    simpa [RefreshKOMs, dlookup, firstSome_none_right] using h2

/-- Lowercase hex digit character for a value below 16 (the `%04x`
formatting used by `json.dump`). -/
def hexDig (d : Nat) : Char :=
  if d < 10 then Char.ofNat (48 + d) else Char.ofNat (87 + d)

/-- The four lowercase hex digits of a value below 0x10000. -/
def toHex4 (v : Nat) : List Char :=
  [hexDig (v / 4096 % 16), hexDig (v / 256 % 16), hexDig (v / 16 % 16), hexDig (v % 16)]

/-- Value of one hex digit character (either case, as `json.load`). -/
def fromHexDig (c : Char) : Option Nat :=
  if '0' ≤ c ∧ c ≤ '9' then some (c.toNat - 48)
  else if 'a' ≤ c ∧ c ≤ 'f' then some (c.toNat - 87)
  else if 'A' ≤ c ∧ c ≤ 'F' then some (c.toNat - 55)
  else none

/-- Parse exactly four hex digits into a value below 0x10000. -/
def parse4Hex (l : List Char) : Option (Nat × List Char) :=
  match l with
  | a :: b :: c :: d :: rest =>
    match fromHexDig a, fromHexDig b, fromHexDig c, fromHexDig d with
    | some x, some y, some z, some w => some (x * 4096 + y * 256 + z * 16 + w, rest)
    | _, _, _, _ => none
  | _ => none

/-- Escape of one character exactly as Python 2 `json.dump` with its
default `ensure_ascii=True`: the two-character named escapes, `\uXXXX`
for other control and non-ASCII characters, and a UTF-16 surrogate
pair of `\uXXXX` escapes for characters beyond 0xFFFF. -/
def escChar (c : Char) : List Char :=
  if c = '"' then ['\\', '"']
  else if c = '\\' then ['\\', '\\']
  else if c = '\x08' then ['\\', 'b']
  else if c = '\x0c' then ['\\', 'f']
  else if c = '\n' then ['\\', 'n']
  else if c = '\r' then ['\\', 'r']
  else if c = '\t' then ['\\', 't']
  else if c.toNat < 0x20 ∨ 0x7e < c.toNat then
    if c.toNat < 0x10000 then '\\' :: 'u' :: toHex4 c.toNat
    else
      ('\\' :: 'u' :: toHex4 (0xD800 + (c.toNat - 0x10000) / 1024)) ++
      ('\\' :: 'u' :: toHex4 (0xDC00 + (c.toNat - 0x10000) % 1024))
  else [c]

/-- Continuation of `\uXXXX` parsing when the first value is a high
surrogate: expect a second `\uXXXX` low surrogate and recombine. -/
def parseEscLow (v : Nat) (l : List Char) : Option (Char × List Char) :=
  match l with
  | '\\' :: 'u' :: rest3 =>
    (parse4Hex rest3).bind fun wr =>
      if 0xDC00 ≤ wr.1 ∧ wr.1 ≤ 0xDFFF then
        some (Char.ofNat (0x10000 + (v - 0xD800) * 1024 + (wr.1 - 0xDC00)), wr.2)
      else none
  | _ => none

/-- Interpretation of one parsed `\uXXXX` value: a plain BMP character,
or the start of a UTF-16 surrogate pair.  A lone surrogate is rejected;
the writer never produces one (and a Lean `Char` could not hold it). -/
def parseEscU2 (v : Nat) (rest2 : List Char) : Option (Char × List Char) :=
  if v < 0xD800 ∨ 0xDFFF < v then some (Char.ofNat v, rest2)
  else if v < 0xDC00 then parseEscLow v rest2
  else none

/-- Parse one JSON string escape (the part after the backslash): the
named escapes and `\uXXXX`, as `json.load` does. -/
def parseEsc (l : List Char) : Option (Char × List Char) :=
  match l with
  | [] => none
  | e :: rest =>
    if e = '"' then some ('"', rest)
    else if e = '\\' then some ('\\', rest)
    else if e = '/' then some ('/', rest)
    else if e = 'b' then some ('\x08', rest)
    else if e = 'f' then some ('\x0c', rest)
    else if e = 'n' then some ('\n', rest)
    else if e = 'r' then some ('\r', rest)
    else if e = 't' then some ('\t', rest)
    else if e = 'u' then (parse4Hex rest).bind fun vr => parseEscU2 vr.1 vr.2
    else none

theorem fromHexDig_hexDig (x : Nat) (hx : x < 16) : fromHexDig (hexDig x) = some x := by
  interval_cases x <;> decide

theorem parse4Hex_toHex4 (v : Nat) (hv : v < 0x10000) (X : List Char) :
    parse4Hex (toHex4 v ++ X) = some (v, X) := by
  have h1 : v / 4096 % 16 < 16 := Nat.mod_lt _ (by omega)
  have h2 : v / 256 % 16 < 16 := Nat.mod_lt _ (by omega)
  have h3 : v / 16 % 16 < 16 := Nat.mod_lt _ (by omega)
  have h4 : v % 16 < 16 := Nat.mod_lt _ (by omega)
  have hsum : v / 4096 % 16 * 4096 + v / 256 % 16 * 256 + v / 16 % 16 * 16 + v % 16 = v := by
    omega
  simp only [toHex4, List.cons_append, List.nil_append, parse4Hex,
    fromHexDig_hexDig _ h1, fromHexDig_hexDig _ h2, fromHexDig_hexDig _ h3,
    fromHexDig_hexDig _ h4, hsum]

theorem char_toNat_valid (c : Char) :
    c.toNat < 0x110000 ∧ ¬ (0xD800 ≤ c.toNat ∧ c.toNat ≤ 0xDFFF) := by
  have h := c.valid
  have he : c.toNat = c.val.toNat := rfl
  rw [he]
  rcases h with h | ⟨h1, h2⟩
  · constructor <;> omega
  · constructor <;> omega

theorem parseEsc_u (Y : List Char) :
    parseEsc ('u' :: Y) = (parse4Hex Y).bind fun vr => parseEscU2 vr.1 vr.2 := by
  simp [parseEsc]

/-- Every character either passes through the escaper verbatim (and is
then neither a quote nor a backslash), or escapes to a backslash
sequence that `parseEsc` maps back to the character. -/
theorem parseEsc_escChar (c : Char) :
    (escChar c = [c] ∧ ¬ c = '"' ∧ ¬ c = '\\') ∨
    (∃ tail : List Char, escChar c = '\\' :: tail ∧
      ∀ X : List Char, parseEsc (tail ++ X) = some (c, X)) := by
  by_cases h1 : c = '"'
  · subst h1
    exact Or.inr ⟨['"'], by decide, fun X => by simp [parseEsc]⟩
  by_cases h2 : c = '\\'
  · subst h2
    exact Or.inr ⟨['\\'], by simp [escChar], fun X => by simp [parseEsc]⟩
  by_cases h3 : c = '\x08'
  · subst h3
    exact Or.inr ⟨['b'], by decide, fun X => by simp [parseEsc]⟩
  by_cases h4 : c = '\x0c'
  · subst h4
    exact Or.inr ⟨['f'], by decide, fun X => by simp [parseEsc]⟩
  by_cases h5 : c = '\n'
  · subst h5
    exact Or.inr ⟨['n'], by decide, fun X => by simp [parseEsc]⟩
  by_cases h6 : c = '\r'
  · subst h6
    exact Or.inr ⟨['r'], by decide, fun X => by simp [parseEsc]⟩
  by_cases h7 : c = '\t'
  · subst h7
    exact Or.inr ⟨['t'], by decide, fun X => by simp [parseEsc]⟩
  by_cases h8 : c.toNat < 0x20 ∨ 0x7e < c.toNat
  · right
    obtain ⟨hlt, hsur⟩ := char_toNat_valid c
    by_cases h9 : c.toNat < 0x10000
    · refine ⟨'u' :: toHex4 c.toNat, ?_, ?_⟩
      · simp [escChar, h1, h2, h3, h4, h5, h6, h7, h8, h9]
      · intro X
        rw [List.cons_append, parseEsc_u, parse4Hex_toHex4 c.toNat h9 X,
          Option.some_bind]
        simp only [parseEscU2, if_pos (show c.toNat < 0xD800 ∨ 0xDFFF < c.toNat by omega),
          Char.ofNat_toNat]
    · refine ⟨'u' :: toHex4 (0xD800 + (c.toNat - 0x10000) / 1024) ++
        ('\\' :: 'u' :: toHex4 (0xDC00 + (c.toNat - 0x10000) % 1024)), ?_, ?_⟩
      · simp [escChar, h1, h2, h3, h4, h5, h6, h7, h8, h9]
      · intro X
        have hdivlt : (c.toNat - 0x10000) / 1024 < 1024 := by omega
        have hhv : 0xD800 + (c.toNat - 0x10000) / 1024 < 0x10000 := by omega
        have hlv : 0xDC00 + (c.toNat - 0x10000) % 1024 < 0x10000 := by
          have := Nat.mod_lt (c.toNat - 0x10000) (show 0 < 1024 by omega)
          omega
        have hshape : ('u' :: toHex4 (0xD800 + (c.toNat - 0x10000) / 1024) ++
            ('\\' :: 'u' :: toHex4 (0xDC00 + (c.toNat - 0x10000) % 1024))) ++ X =
            'u' :: (toHex4 (0xD800 + (c.toNat - 0x10000) / 1024) ++
              ('\\' :: 'u' :: (toHex4 (0xDC00 + (c.toNat - 0x10000) % 1024) ++ X))) := by
          simp [List.append_assoc]
        rw [hshape, parseEsc_u, parse4Hex_toHex4 _ hhv, Option.some_bind]
        simp only [parseEscU2]
        rw [if_neg (by omega), if_pos (by omega)]
        simp only [parseEscLow]
        rw [parse4Hex_toHex4 _ hlv, Option.some_bind]
        have hm := Nat.mod_lt (c.toNat - 0x10000) (show 0 < 1024 by omega)
        have hcond : (0xDC00 : Nat) ≤ 0xDC00 + (c.toNat - 0x10000) % 1024 ∧
            0xDC00 + (c.toNat - 0x10000) % 1024 ≤ 0xDFFF := ⟨by omega, by omega⟩
        have harith : 0x10000 + (0xD800 + (c.toNat - 0x10000) / 1024 - 0xD800) * 1024 +
            (0xDC00 + (c.toNat - 0x10000) % 1024 - 0xDC00) = c.toNat := by
          have hmd := Nat.div_add_mod (c.toNat - 0x10000) 1024
          omega
        simp only [if_pos hcond, harith, Char.ofNat_toNat]
  · left
    exact ⟨by simp [escChar, h1, h2, h3, h4, h5, h6, h7, h8], h1, h2⟩

/-- JSON escaping of a whole string, character by character. -/
def escStr : List Char → List Char
  | [] => []
  | c :: cs => escChar c ++ escStr cs

/-- Fuel-indexed parser for the body of a JSON string after the opening
quote: collect characters, interpreting backslash escapes, up to the
closing quote; return the decoded characters and the input after the
closing quote.  The fuel only serves structural termination. -/
def parseStrBodyAux : Nat → List Char → Option (List Char × List Char)
  | 0, _ => none
  | _ + 1, [] => none
  | fuel + 1, c :: rest =>
    if c = '"' then some ([], rest)
    else if c = '\\' then
      match parseEsc rest with
      | none => none
      | some (d, rest2) =>
        match parseStrBodyAux fuel rest2 with
        | none => none
        | some (s, rest3) => some (d :: s, rest3)
    else
      match parseStrBodyAux fuel rest with
      | none => none
      | some (s, rest3) => some (c :: s, rest3)

theorem parseStrBodyAux_rt (s : List Char) : ∀ (fuel : Nat) (X : List Char),
    (escStr s ++ '"' :: X).length ≤ fuel →
    parseStrBodyAux fuel (escStr s ++ '"' :: X) = some (s, X) := by
  induction s with
  | nil =>
    intro fuel X hle
    match fuel, hle with
    | f + 1, _ => simp [escStr, parseStrBodyAux]
  | cons c cs ih =>
    intro fuel X hle
    rcases parseEsc_escChar c with ⟨hlit, hq, hbs⟩ | ⟨tail, htail, hparse⟩
    · have hsh : escStr (c :: cs) ++ '"' :: X = c :: (escStr cs ++ '"' :: X) := by
        simp [escStr, hlit]
      rw [hsh] at hle ⊢
      match fuel, hle with
      | f + 1, hle =>
        have hle' : (escStr cs ++ '"' :: X).length ≤ f := by
          simp only [List.length_cons] at hle
          omega
        simp only [parseStrBodyAux, if_neg hq, if_neg hbs, ih f X hle']
    · have hsh : escStr (c :: cs) ++ '"' :: X =
          '\\' :: (tail ++ (escStr cs ++ '"' :: X)) := by
        simp [escStr, htail]
      rw [hsh] at hle ⊢
      match fuel, hle with
      | f + 1, hle =>
        have hle' : (escStr cs ++ '"' :: X).length ≤ f := by
          simp only [List.length_cons, List.length_append] at hle ⊢
          omega
        have hbq : ¬ ('\\' : Char) = '"' := by decide
        simp only [parseStrBodyAux, if_neg hbq, if_pos rfl, if_true,
          eq_self_iff_true, hparse (escStr cs ++ '"' :: X), ih f X hle']

/-- One JSON string as written by `json.dump`. -/
def dumpStr (s : String) : List Char := '"' :: (escStr s.toList ++ ['"'])

/-- The comma-separated items of the serialized object, in dict order:
`"key": "value"` joined by `", "` (the Python 2 `json.dump` default
separators). -/
def dumpItems : Dict → List Char
  | [] => []
  | [(k, v)] => dumpStr k ++ ':' :: ' ' :: dumpStr v
  | (k, v) :: rest => dumpStr k ++ ':' :: ' ' :: dumpStr v ++ ',' :: ' ' :: dumpItems rest

/-- The full serialized object written by `json.dump` for a flat
string-to-string dict: `\x7b`, the joined items, `\x7d`. -/
def dumpDict (m : Dict) : List Char := '\x7b' :: (dumpItems m ++ ['\x7d'])

/-- Fuel-indexed parser for the nonempty item sequence of a serialized
flat string object, starting right after the opening brace and
consuming the closing brace — exactly the grammar the writer produces
(`json.load` restricted to the snapshot store's own format).  The fuel
only serves structural termination. -/
def parseItemsAux : Nat → List Char → Option (Dict × List Char)
  | 0, _ => none
  | fuel + 1, l =>
    match l with
    | '"' :: l1 =>
      match parseStrBodyAux l1.length l1 with
      | none => none
      | some (k, l2) =>
        match l2 with
        | ':' :: ' ' :: '"' :: l3 =>
          match parseStrBodyAux l3.length l3 with
          | none => none
          | some (v, l4) =>
            match l4 with
            | '\x7d' :: l5 => some ([(String.mk k, String.mk v)], l5)
            | ',' :: ' ' :: l5 =>
              match parseItemsAux fuel l5 with
              | none => none
              | some (items, l6) => some ((String.mk k, String.mk v) :: items, l6)
            | _ => none
        | _ => none
    | _ => none

theorem parseItemsAux_rt (m : Dict) : ∀ (fuel : Nat) (X : List Char),
    m ≠ [] → m.length ≤ fuel →
    parseItemsAux fuel (dumpItems m ++ '\x7d' :: X) = some (m, X) := by
  induction m with
  | nil =>
    intro fuel X hne _
    exact absurd rfl hne
  | cons kv rest ih =>
    obtain ⟨k, v⟩ := kv
    intro fuel X hne hfuel
    match fuel, hfuel with
    | fuel + 1, hfuel =>
      cases rest with
      | nil =>
        have hsh : dumpItems [(k, v)] ++ '\x7d' :: X =
            '"' :: (escStr k.toList ++ '"' :: (':' :: ' ' :: '"' ::
              (escStr v.toList ++ '"' :: ('\x7d' :: X)))) := by
          simp [dumpItems, dumpStr, List.append_assoc]
        rw [hsh]
        simp only [parseItemsAux, parseStrBodyAux_rt k.toList _ _ le_rfl,
          parseStrBodyAux_rt v.toList _ _ le_rfl]
        rfl
      | cons kv2 rest2 =>
        have hsh : dumpItems ((k, v) :: kv2 :: rest2) ++ '\x7d' :: X =
            '"' :: (escStr k.toList ++ '"' :: (':' :: ' ' :: '"' ::
              (escStr v.toList ++ '"' :: (',' :: ' ' ::
                (dumpItems (kv2 :: rest2) ++ '\x7d' :: X))))) := by
          obtain ⟨k2, v2⟩ := kv2
          simp [dumpItems, dumpStr, List.append_assoc]
        rw [hsh]
        have hrec := ih fuel X (by simp) (by
          simp only [List.length_cons] at hfuel ⊢
          omega)
        simp only [parseItemsAux, parseStrBodyAux_rt k.toList _ _ le_rfl,
          parseStrBodyAux_rt v.toList _ _ le_rfl, hrec]
        rfl

/-- Parser for a whole serialized snapshot object, the grammar written
by the snapshot store (`json.load` restricted to the flat string-object
documents `json.dump` produces): the braces, and between them either
nothing or the item sequence, with nothing after the closing brace. -/
def parseDict (l : List Char) : Option Dict :=
  match l with
  | '\x7b' :: rest =>
    match rest with
    | [] => none
    | c :: rest2 =>
      if c = '\x7d' then (if rest2 = [] then some [] else none)
      else
        match parseItemsAux (c :: rest2).length (c :: rest2) with
        | some (items, rest3) => if rest3 = [] then some items else none
        | none => none
  | _ => none

theorem dumpItems_length (m : Dict) : m.length ≤ (dumpItems m).length := by
  induction m with
  | nil => simp [dumpItems]
  | cons kv rest ih =>
    obtain ⟨k, v⟩ := kv
    cases rest with
    | nil => simp [dumpItems, dumpStr]
    | cons kv2 rest2 =>
      simp only [dumpItems, dumpStr, List.length_append, List.length_cons,
        List.length_nil] at ih ⊢
      omega

theorem dumpItems_cons_head (k v : String) (rest : Dict) :
    ∃ T : List Char, dumpItems ((k, v) :: rest) = '"' :: T := by
  cases rest with
  | nil => exact ⟨escStr k.toList ++ ['"'] ++ (':' :: ' ' :: dumpStr v), by
      simp [dumpItems, dumpStr]⟩
  | cons kv2 rest2 =>
    exact ⟨escStr k.toList ++ ['"'] ++ (':' :: ' ' :: (dumpStr v ++
      ',' :: ' ' :: dumpItems (kv2 :: rest2))), by simp [dumpItems, dumpStr]⟩

/-- Serialization round-trip at the document level: parsing the dump of
any snapshot dict recovers exactly its item list. -/
theorem parseDict_dumpDict (m : Dict) : parseDict (dumpDict m) = some m := by
  cases m with
  | nil => rfl
  | cons kv rest =>
    obtain ⟨k, v⟩ := kv
    obtain ⟨T, hT⟩ := dumpItems_cons_head k v rest
    have hsh : dumpDict ((k, v) :: rest) = '\x7b' :: '"' :: (T ++ ['\x7d']) := by
      simp [dumpDict, hT]
    rw [hsh]
    have hq : ¬ ('"' : Char) = '\x7d' := by decide
    simp only [parseDict, if_neg hq]
    have hback : '"' :: (T ++ ['\x7d']) = dumpItems ((k, v) :: rest) ++ '\x7d' :: [] := by
      simp [hT]
    rw [hback]
    have hlen : ((k, v) :: rest).length ≤ (dumpItems ((k, v) :: rest) ++ '\x7d' :: []).length := by
      have := dumpItems_length ((k, v) :: rest)
      simp only [List.length_append, List.length_cons, List.length_nil] at this ⊢
      omega
    rw [parseItemsAux_rt ((k, v) :: rest) _ [] (by simp) hlen]
    simp

/-- A directory entry: a regular file with text content, or a symbolic
link to another name. -/
inductive FsEntry where
  | file (content : List Char)
  | link (target : String)

/-- A directory state: what entry, if any, each name holds. -/
def FileSys : Type := String → Option FsEntry

/-- Model of `open(name)` for reading: follow one level of symbolic
link (the only depth `main` ever creates); a missing name or a
dangling link raises `IOError`, modelled as `none`. -/
def readFile (fs : FileSys) (name : String) : Option (List Char) :=
  match fs name with
  | none => none
  | some (FsEntry.file c) => some c
  | some (FsEntry.link t) =>
    match fs t with
    | some (FsEntry.file c) => some c
    | _ => none

/-- Model of `KOM._LoadFromFile`: when `open` raises `IOError` (missing
name or dangling link) return the empty dict; otherwise `json.load`
the content — parse the flat string-object document and build the dict
by repeated insertion; malformed content is a fatal error (`none`). -/
def LoadFromFile (fs : FileSys) (filename : String) : Option Dict :=
  match readFile fs filename with
  | none => some []
  | some content =>
    match parseDict content with
    | none => none
    | some items => some (insertAll [] items)

/-- Model of `KOM._SaveToFile`: open the name for writing (creating or
truncating it) and `json.dump` the snapshot into it. -/
def SaveToFile (fs : FileSys) (filename : String) (koms : Dict) : FileSys :=
  fun n => if n = filename then some (FsEntry.file (dumpDict koms)) else fs n

/-- C6: loading from a path holding no file returns the empty mapping
rather than raising — the caught `IOError` is the first-run bootstrap
case. -/
theorem LoadFromFile_missing (fs : FileSys) (filename : String)
    (h : fs filename = none) : LoadFromFile fs filename = some [] := by
  simp [LoadFromFile, readFile, h]

/-- Witness for C6 on the empty directory. -/
theorem LoadFromFile_missing_witness :
    ((fun _ => none : FileSys) "koms.json" = none) ∧
    LoadFromFile (fun _ => none) "koms.json" = some [] :=
  ⟨rfl, LoadFromFile_missing (fun _ => none) "koms.json" rfl⟩

/-- C8: saving any snapshot mapping (canonical: pairwise-distinct keys)
to a path and loading that same path reproduces the mapping exactly. -/
theorem SaveToFile_LoadFromFile_roundtrip (fs : FileSys) (filename : String) (m : Dict)
    (hnd : (m.map Prod.fst).Nodup) :
    LoadFromFile (SaveToFile fs filename m) filename = some m := by
  have hread : readFile (SaveToFile fs filename m) filename = some (dumpDict m) := by
    simp [readFile, SaveToFile]
  simp [LoadFromFile, hread, parseDict_dumpDict, insertAll_nil_eq m hnd]

/-- Witness for C8 on a concrete two-entry snapshot. -/
theorem SaveToFile_LoadFromFile_roundtrip_witness :
    (([("123456", "Mountain Climb"), ("789012", "River Sprint")].map
        (Prod.fst (α := String) (β := String))).Nodup) ∧
    LoadFromFile (SaveToFile (fun _ => none) "koms.json.20121231"
        [("123456", "Mountain Climb"), ("789012", "River Sprint")])
      "koms.json.20121231" =
      some [("123456", "Mountain Climb"), ("789012", "River Sprint")] := by
  refine ⟨by decide, ?_⟩
  exact SaveToFile_LoadFromFile_roundtrip (fun _ => none) "koms.json.20121231"
    [("123456", "Mountain Climb"), ("789012", "River Sprint")] (by decide)

/-- Model of `os.unlink(name)`: remove the directory entry itself (a
symbolic link is removed, not followed); raises `OSError` (`none`)
when no entry of that name exists. -/
def unlinkFs (fs : FileSys) (name : String) : Option FileSys :=
  match fs name with
  | none => none
  | some _ => some (fun n => if n = name then none else fs n)

/-- Model of `os.symlink(target, name)`: create a symbolic link at
`name`; raises `OSError` (`none`) if an entry of that name exists. -/
def symlinkFs (fs : FileSys) (target name : String) : Option FileSys :=
  match fs name with
  | some _ => none
  | none => some (fun n => if n = name then some (FsEntry.link target) else fs n)

/-- Model of the body of `main` after a valid athlete id, over the
directory state, the page-fetch collaborator, and the dated archive
name computed from the current date: construct the `KOM` object (which
loads the previous snapshot from `koms.json`, empty when missing),
refresh the current snapshot, compute the diff (whose two sets fully
determine the `+`/`-` lines printed next), then archive —
`os.unlink('koms.json')`, save the dated snapshot, re-link the stable
name.  First component: the diff that was printed (`none` when the run
died before printing, on a corrupt snapshot).  Second component: the
final directory state (`none` when the run died of an uncaught
`OSError` before completing the archival, leaving the state as it
was). -/
def mainRun (fs : FileSys) (fetch : Nat → List Char) (dated : String) :
    Option (Finset String × Finset String) × Option FileSys :=
  match LoadFromFile fs "koms.json" with
  | none => (none, none)
  | some old_koms =>
    match unlinkFs fs "koms.json" with
    | none => (some (Diff old_koms (RefreshKOMs fetch []).1), none)
    | some fs1 =>
      match symlinkFs (SaveToFile fs1 dated (RefreshKOMs fetch []).1) dated
          "koms.json" with
      | none => (some (Diff old_koms (RefreshKOMs fetch []).1), none)
      | some fs2 => (some (Diff old_koms (RefreshKOMs fetch []).1), some fs2)

/-- C7: when no file or symlink named `koms.json` exists, loading the
missing snapshot is tolerated (empty previous snapshot) and the diff
output is produced, but `os.unlink('koms.json')` then raises an
uncaught `OSError`: the dated snapshot file is never written and no
stable pointer is created — the run dies with the directory unchanged. -/
theorem mainRun_first_run_oserror (fs : FileSys) (fetch : Nat → List Char)
    (dated : String) (h : fs "koms.json" = none) :
    mainRun fs fetch dated =
      (some (Diff [] (RefreshKOMs fetch []).1), none) := by
  simp [mainRun, LoadFromFile, readFile, unlinkFs, h]

/-- Witness for C7 on the empty directory with an empty-page fetcher. -/
theorem mainRun_first_run_oserror_witness :
    ((fun _ => none : FileSys) "koms.json" = none) ∧
    mainRun (fun _ => none) (fun _ => []) "koms.json.20121231" =
      (some (Diff [] (RefreshKOMs (fun _ => []) []).1), none) :=
  ⟨rfl, mainRun_first_run_oserror (fun _ => none) (fun _ => []) "koms.json.20121231" rfl⟩

/-- A Strava athlete as built by the typed client (`strava.py`):
numeric id and optional name. -/
structure Athlete where
  id : Int
  name : Option String

/-- A segment effort as built by `Segment.GetEfforts`: the athlete and
the 1-based rank assigned while iterating the efforts JSON.  (The
segment and elapsed-time fields play no role in `GetRank` and are
omitted.) -/
structure Effort where
  athlete : Athlete
  rank : Nat

/-- Python `==` between the bound-method object `effort.GetAthlete` and
an `Athlete` instance — the comparison `Segment.GetRank` actually
performs, since the source omits the call parentheses.  Neither class
defines `__eq__`, method-vs-other comparison falls back to identity,
and a freshly created bound-method object is never the same object as
an `Athlete` instance, so this comparison is false for every effort
and every athlete. -/
def methodEqAthlete (_e : Effort) (_a : Athlete) : Bool := false

/-- Model of `Segment.GetRank`: scan the efforts the segment yields and
return the rank of the first effort whose comparison
`effort.GetAthlete == athlete` succeeds, else `None`.  (On a match the
source would actually return the unfired method `effort.GetRank`; the
branch is unreachable.) -/
def GetRank (efforts : List Effort) (athlete : Athlete) : Option Nat :=
  match efforts.find? (fun e => methodEqAthlete e athlete) with
  | some e => some e.rank
  | none => none

/-- C9: for every athlete argument and every efforts list,
`Segment.GetRank` returns `None`: the defective comparison of a method
reference against the athlete never matches any effort. -/
theorem GetRank_always_none (efforts : List Effort) (athlete : Athlete) :
    GetRank efforts athlete = none := by
  rw [GetRank, List.find?_eq_none.mpr (fun e _ => by simp [methodEqAthlete])]

/-- The long-option table of `kom.py`:
`getopt.getopt(argv, 'a:', ['athlete_id='])`. -/
def longOptName : List Char := "athlete_id=".toList

/-- List prefix test (`str.startswith`, used by getopt's long-option
abbreviation matching). -/
def isPre : List Char → List Char → Bool
  | [], _ => true
  | _ :: _, [] => false
  | a :: as, b :: bs => a == b && isPre as bs

/-- Split a token at its first `=` (`opt.find('=')` in getopt). -/
def splitEq : List Char → Option (List Char × List Char)
  | [] => none
  | c :: r =>
    if c = '=' then some ([], r)
    else (splitEq r).map (fun pr => (c :: pr.1, pr.2))

/-- Model of `getopt.getopt(argv, 'a:', ['athlete_id='])`: scan argv
until the first non-option token (or `--`); `-a` takes its argument
from the rest of its token or from the next token; a long token
`--PRE[=value]` matches when `PRE` is a prefix of `athlete_id` (getopt
accepts unique abbreviations and the table has one entry, which
requires an argument), taking the value after `=` or from the next
token; anything else raises `GetoptError` (`none`).  Returns the
`(option, value)` pairs; `main` ignores the positional remainder. -/
def parseOpts : List String → Option (List (String × String))
  | [] => some []
  | tok :: rest =>
    match tok.toList with
    | '-' :: '-' :: [] => some []
    | '-' :: '-' :: c :: lopt =>
      (match splitEq (c :: lopt) with
       | some (nm, value) =>
         if isPre nm longOptName then
           (parseOpts rest).map (fun os => ("--athlete_id", String.mk value) :: os)
         else none
       | none =>
         if isPre (c :: lopt) longOptName then
           match rest with
           | [] => none
           | v :: rest2 =>
             (parseOpts rest2).map (fun os => ("--athlete_id", v) :: os)
         else none)
    | '-' :: c :: cs =>
      if c = 'a' then
        match cs with
        | [] =>
          (match rest with
           | [] => none
           | v :: rest2 => (parseOpts rest2).map (fun os => ("-a", v) :: os))
        | _ :: _ => (parseOpts rest).map (fun os => ("-a", String.mk cs) :: os)
      else none
    | _ => some []

/-- Nonempty all-decimal digit run read as a number. -/
def digitsToNat (ds : List Char) : Option Nat :=
  if ds = [] then none
  else if ds.all Char.isDigit then
    some (ds.foldl (fun a c => a * 10 + (c.toNat - 48)) 0)
  else none

/-- Model of Python 2 `int(str)`: strip surrounding ASCII whitespace,
allow one optional sign, then require a nonempty decimal digit run;
anything else raises `ValueError` (`none`). -/
def pyInt (s : String) : Option Int :=
  match ((s.toList.dropWhile isPySpace).reverse.dropWhile isPySpace).reverse with
  | '+' :: ds => (digitsToNat ds).map (fun n => (n : Int))
  | '-' :: ds => (digitsToNat ds).map (fun n => -(n : Int))
  | ds => (digitsToNat ds).map (fun n => (n : Int))

/-- The `for opt, arg in opts` loop of `main`: every occurrence of the
athlete flag re-parses its value and overwrites `athlete_id`
(initially 0); a non-integer value raises `ValueError` (`none`) at
that iteration. -/
def athleteFoldAux (cur : Int) : List (String × String) → Option Int
  | [] => some cur
  | (opt, arg) :: rest =>
    if opt = "-a" ∨ opt = "--athlete_id" then
      match pyInt arg with
      | none => none
      | some v => athleteFoldAux v rest
    else athleteFoldAux cur rest

/-- Outcome of the command-line boundary of `main`. -/
inductive CliOutcome where
  | usageExit
  | valueErrorCrash
  | run (athlete_id : Int)
  deriving DecidableEq

/-- Model of `main` up to the athlete-id check: a `GetoptError` prints
usage and exits 2; a failing `int(arg)` raises an uncaught
`ValueError`; an id of zero (also the default when the flag never
occurred) prints usage and exits 2; otherwise the run proceeds. -/
def mainCli (argv : List String) : CliOutcome :=
  match parseOpts argv with
  | none => CliOutcome.usageExit
  | some opts =>
    match athleteFoldAux 0 opts with
    | none => CliOutcome.valueErrorCrash
    | some v => if v = 0 then CliOutcome.usageExit else CliOutcome.run v

/-- The observables of one `kom.py` invocation at the boundary: the
process exit status when the boundary ends the run (2 after usage
text, 1 after an uncaught `ValueError`; 0 here stands for "the
boundary did not end the process"), whether the usage text was
printed, and how many pages were fetched. -/
structure MainObs where
  exitCode : Nat
  usagePrinted : Bool
  pagesFetched : Nat
  deriving DecidableEq

def mainObs (argv : List String) (fetch : Nat → List Char) : MainObs :=
  match mainCli argv with
  | CliOutcome.usageExit => ⟨2, true, 0⟩
  | CliOutcome.valueErrorCrash => ⟨1, false, 0⟩
  | CliOutcome.run _ => ⟨0, false, (RefreshKOMs fetch []).2.length⟩

/-- Counterexample to C10 as stated: the command line `-a abc` supplies
an invalid athlete identifier, yet `main` does not print the usage
text — `int('abc')` raises an uncaught `ValueError` (exit status 1,
no usage, and no page fetched). -/
theorem mainCli_invalid_no_usage :
    pyInt "abc" = none ∧
    mainCli ["-a", "abc"] = CliOutcome.valueErrorCrash ∧
    (mainObs ["-a", "abc"] (fun _ => [])).usagePrinted = false ∧
    (mainObs ["-a", "abc"] (fun _ => [])).exitCode = 1 ∧
    (mainObs ["-a", "abc"] (fun _ => [])).pagesFetched = 0 := by
  refine ⟨by decide, by decide, by decide, by decide, by decide⟩

/-- C10 amended: at the command-line boundary, an option-parse failure
or a missing-or-zero athlete id prints the usage text and exits with
status 2; a non-integer id value instead raises an uncaught
`ValueError` — non-zero exit (status 1) without usage text; in every
one of these cases no page fetch is performed. -/
theorem mainCli_boundary (argv : List String) (fetch : Nat → List Char) :
    (parseOpts argv = none → mainObs argv fetch = ⟨2, true, 0⟩) ∧
    (∀ opts, parseOpts argv = some opts →
      (athleteFoldAux 0 opts = some 0 → mainObs argv fetch = ⟨2, true, 0⟩) ∧
      (athleteFoldAux 0 opts = none → mainObs argv fetch = ⟨1, false, 0⟩)) ∧
    (parseOpts argv = some [] → athleteFoldAux 0 [] = some 0) := by
  refine ⟨?_, ?_, fun _ => rfl⟩
  · intro h
    simp [mainObs, mainCli, h]
  · intro opts hopts
    constructor
    · intro hzero
      simp [mainObs, mainCli, hopts, hzero]
    · intro hcrash
      simp [mainObs, mainCli, hopts, hcrash]

/-- Witness for the amended C10 at the empty command line (missing
flag). -/
theorem mainCli_boundary_witness :
    parseOpts [] = some [] ∧ athleteFoldAux 0 [] = some 0 ∧
    mainObs [] (fun _ => []) = ⟨2, true, 0⟩ := by
  refine ⟨rfl, rfl, ?_⟩
  exact ((mainCli_boundary [] (fun _ => [])).2.1 [] rfl).1 rfl
